import Mathlib

/-!
Shallow embedding of the timeline/caption core of
`src/motionalyx-reels-render-main/server.js`.

Conventions of the embedding:
* JS numbers that hold integer millisecond values are modelled as `Int`.
* A JS number that may be `NaN`/non-finite (a failed `Number(...)` coercion,
  a failed probe) is modelled as `Option Int`, `none` standing for the
  non-finite case.
* The genuinely fractional quantities are modelled in `ℚ` (the crossfade
  offsets in seconds), with `Math.round` becoming `jsRound q = ⌊q + 1/2⌋`
  (JS rounds half-way cases toward +infinity); the scaling
  `Math.round(d * factor)` with `factor = audioMs / totalDur` is carried out
  in exact integer arithmetic by `jsRoundScale`, proved equal to the
  rational form in `jsRoundScale_eq_jsRound`.
* The whole-input "not an array" case of `normalizeAndScaleCaptions` is
  modelled by an `Option (List RawCaption)` argument, `none` standing for a
  non-array value.
-/

/-- A raw caption as it arrives in the request body: `start_ms`/`end_ms` are
the results of `Number(c?.start_ms)` / `Number(c?.end_ms)` (`none` = not a
finite number), `text` the raw text. -/
structure RawCaption where
  start_ms : Option Int
  end_ms : Option Int
  text : String
deriving DecidableEq, Repr

/-- A normalized caption produced by `normalizeAndScaleCaptions`. -/
structure ScaledCaption where
  start_ms : Int
  end_ms : Int
  text : String
deriving DecidableEq, Repr

/-- Whitespace class used by the JS regexes `\s` and by `String.prototype.trim`. -/
def jsIsWs (c : Char) : Bool := c.isWhitespace

/-- Drop leading and trailing whitespace from a character list. -/
def trimChars (l : List Char) : List Char :=
  ((l.dropWhile jsIsWs).reverse.dropWhile jsIsWs).reverse

/-- JS `String.prototype.trim`. -/
def jsTrim (s : String) : String := String.mk (trimChars s.data)

/-- The filtering loop of `normalizeAndScaleCaptions` (server.js lines 94-101):
drop entries whose times are non-finite, whose `end <= start`, or whose
trimmed text is empty; keep `(duration, trimmed text)` for the rest. -/
def filterItems (captions : List RawCaption) : List (Int × String) :=
  captions.filterMap fun c =>
    match c.start_ms, c.end_ms with
    | some s, some e =>
        let txt := jsTrim c.text
        if e ≤ s then none
        else if txt = "" then none
        else some (e - s, txt)
    | _, _ => none

/-- JS `Math.round` on an (ideal, rational-valued) number: round half toward
positive infinity. -/
def jsRound (q : ℚ) : Int := ⌊q + 1/2⌋

/-- The source's `Math.round(d * factor)` with `factor = audioMs / totalDur`, carried out
in exact integer arithmetic: `⌊d * audioMs / totalDur + 1/2⌋` equals
`(2 * d * audioMs + totalDur) / (2 * totalDur)` rounded toward negative
infinity.  `jsRoundScale_eq_jsRound` below proves this equal to the rational
`jsRound` form. -/
def jsRoundScale (d audioMs totalDur : Int) : Int :=
  Int.ediv (2 * d * audioMs + totalDur) (2 * totalDur)

/-- The no-target layout loop (server.js lines 104-113): entries back to back
from 0, each duration `max(1, round(dur))`. -/
def buildUntimed : List (Int × String) → Int → List ScaledCaption
  | [], _ => []
  | (d, txt) :: rest, cur =>
      let dur := max 1 d
      ⟨cur, cur + dur, txt⟩ :: buildUntimed rest (cur + dur)

/-- The minimum-segment floor (server.js lines 120-124):
`minSegMs = 600`, `maxPossibleMin = Math.floor(audioMs / n)`; `80` when the
latter is `≤ 0`, `max 80 maxPossibleMin` when it is below 600. -/
def computeMinSeg (audioMs : Int) (n : Nat) : Int :=
  let maxPossibleMin := Int.ediv audioMs (n : Int)
  if maxPossibleMin ≤ 0 then 80
  else if maxPossibleMin < 600 then max 80 maxPossibleMin
  else 600

/-- Insert an `(index, duration)` pair into a list sorted by duration
descending, after any pair of equal duration (the stable order produced by
`Array.prototype.sort` with comparator `(a, b) => b.d - a.d`). -/
def insertDesc (p : Nat × Int) : List (Nat × Int) → List (Nat × Int)
  | [] => [p]
  | q :: qs => if q.2 < p.2 then p :: q :: qs else q :: insertDesc p qs

/-- Indices of the scaled durations sorted by duration descending, ties kept
in original order (server.js lines 135-138). -/
def sortIdxDesc (ds : List Int) : List Nat :=
  (ds.enum.foldl (fun acc p => insertDesc p acc) []).map Prod.fst

/-- First overflow-reduction pass (server.js lines 140-146): walk the indices
in descending-duration order, reducing each duration toward `minSeg` until
the overflow `over` is absorbed. -/
def reducePass1 (minSeg : Int) : List Nat → List Int → Int → List Int × Int
  | [], durs, over => (durs, over)
  | i :: is, durs, over =>
      if over ≤ 0 then (durs, over)
      else
        let d := durs.getD i 0
        let canReduce := max 0 (d - minSeg)
        let reduceBy := min canReduce over
        reducePass1 minSeg is (durs.set i (d - reduceBy)) (over - reduceBy)

/-- Second overflow-reduction pass (server.js lines 148-155): from the last
entry backward, reduce each duration toward 1 until the overflow is gone.
The recursion handles the tail (the later entries) first, which is exactly
the source's backward loop. -/
def reducePass2 : List Int → Int → List Int × Int
  | [], over => ([], over)
  | d :: ds, over =>
      let r := reducePass2 ds over
      if r.2 ≤ 0 then (d :: r.1, r.2)
      else
        let canReduce := max 0 (d - 1)
        let reduceBy := min canReduce r.2
        ((d - reduceBy) :: r.1, r.2 - reduceBy)

/-- The deficit branch `scaled[scaled.length - 1].dur_ms += a` (server.js line 157). -/
def addToLast : List Int → Int → List Int
  | [], _ => []
  | [x], a => [x + a]
  | x :: y :: rest, a => x :: addToLast (y :: rest) a

/-- The output loop (server.js lines 160-169): cumulative starts from 0, each
non-final entry ends `max(1, round(dur))` later, the final entry's `end_ms`
is forced to `audioMs` exactly. -/
def buildOut (audioMs : Int) : List (Int × String) → Int → List ScaledCaption
  | [], _ => []
  | [(_, txt)], cur => [⟨cur, audioMs, txt⟩]
  | (d, txt) :: p :: rest, cur =>
      let dur := max 1 d
      ⟨cur, cur + dur, txt⟩ :: buildOut audioMs (p :: rest) (cur + dur)

/-- The adjusted durations of the known-target scaling path
(server.js lines 115-158): clamp each duration to the minimum-segment floor
after scaling by `audioMs / totalDur`, then absorb any overflow by the two
reduction passes, or add any deficit to the last entry. -/
def scaleTimedDurs (items : List (Int × String)) (audioMs : Int) : List Int :=
  let totalDur := (items.map fun it => max 1 it.1).sum
  let minSeg := computeMinSeg audioMs items.length
  let scaled := items.map fun it => max minSeg (jsRoundScale (max 1 it.1) audioMs totalDur)
  let sum0 := scaled.sum
  if audioMs < sum0 then
    let afterFirst := reducePass1 minSeg (sortIdxDesc scaled) scaled (sum0 - audioMs)
    if 0 < afterFirst.2 then (reducePass2 afterFirst.1 afterFirst.2).1 else afterFirst.1
  else if sum0 < audioMs then addToLast scaled (audioMs - sum0)
  else scaled

/-- The known-target scaling path of `normalizeAndScaleCaptions`
(server.js lines 115-171): the adjusted durations paired back with their
texts, laid out by the output loop. -/
def scaleTimed (items : List (Int × String)) (audioMs : Int) : List ScaledCaption :=
  let totalDur := (items.map fun it => max 1 it.1).sum
  if totalDur ≤ 0 then []
  else buildOut audioMs ((scaleTimedDurs items audioMs).zip (items.map Prod.snd)) 0

/-- The function `normalizeAndScaleCaptions` (server.js lines 91-172). `captions = none`
models a non-array argument, `audioMs = none` a non-finite probed duration. -/
def normalizeAndScaleCaptions (captions : Option (List RawCaption))
    (audioMs : Option Int) : List ScaledCaption :=
  match captions with
  | none => []
  | some caps =>
      let items := filterItems caps
      if items = [] then []
      else
        match audioMs with
        | none => buildUntimed items 0
        | some a => if a ≤ 0 then buildUntimed items 0 else scaleTimed items a

/-!
## Word wrapping (`wrapByChars`, server.js lines 46-89)

The source collapses whitespace, splits on single spaces and manipulates the
words by joining/re-splitting strings.  Since after the collapse every word
is nonempty and free of whitespace, joining words with single spaces and
re-splitting is the identity on the word list, and the length of a joined
candidate line is the sum of the word lengths plus one per separating
space.  The embedding therefore carries lines and the current line as word
lists, with `joinedLen` standing for the length of the space-joined string;
the word counts the source recomputes by re-splitting
(`lines.join(" ").split(" ").filter(Boolean).length` and
`cur.split(" ").filter(Boolean).length`) are the corresponding list lengths.
-/

/-- Split a string into its maximal whitespace-free words (the word list of
`String(text || "").replace(/\s+/g, " ").trim()` split on `" "`). -/
def jsWordsAux : List Char → List Char → List String
  | [], acc => if acc = [] then [] else [String.mk acc.reverse]
  | c :: cs, acc =>
      if jsIsWs c then
        if acc = [] then jsWordsAux cs []
        else String.mk acc.reverse :: jsWordsAux cs []
      else jsWordsAux cs (c :: acc)

/-- The words of a string after whitespace collapsing and trimming. -/
def jsWords (s : String) : List String := jsWordsAux s.data []

/-- Length of the space-joined rendering of a word list (the string the
source would hold in `cur` / a pushed line). -/
def joinedLen : List String → Nat
  | [] => 0
  | w :: ws => ws.foldl (fun acc x => acc + 1 + x.length) w.length

/-- State of the main wrapping loop: pushed lines and the current line. -/
structure WrapState where
  lines : List (List String)
  cur : List String
deriving DecidableEq, Repr

/-- The main word loop of `wrapByChars` (server.js lines 54-66): append each
word to the current line while it fits, otherwise push the current line and
restart from the word; stop (`break`) once `maxLines - 1` lines are pushed. -/
def wrapLoop (maxChars maxLines : Nat) : List String → WrapState → WrapState
  | [], st => st
  | w :: rest, st =>
      if joinedLen (st.cur ++ [w]) ≤ maxChars then
        wrapLoop maxChars maxLines rest ⟨st.lines, st.cur ++ [w]⟩
      else
        let lines' := if st.cur = [] then st.lines else st.lines ++ [st.cur]
        if maxLines - 1 ≤ lines'.length then ⟨lines', [w]⟩
        else wrapLoop maxChars maxLines rest ⟨lines', [w]⟩

/-- The final-line greedy loop (server.js lines 74-80): keep appending the
remaining words while they fit, stop (`break`) at the first word that does
not. -/
def greedyExtend (maxChars : Nat) : List String → List String → List String
  | lastLine, [] => lastLine
  | lastLine, w :: rest =>
      if joinedLen (lastLine ++ [w]) ≤ maxChars then
        greedyExtend maxChars (lastLine ++ [w]) rest
      else lastLine

/-- The post-loop block of `wrapByChars` (server.js lines 68-84): if a
current line is pending and there is room, recompute how many words were
consumed, greedily extend the current line with the remaining words that
fit, and push it. -/
def wrapAfter (maxChars maxLines : Nat) (words : List String) (st : WrapState) :
    List (List String) :=
  if st.cur ≠ [] ∧ st.lines.length < maxLines then
    let usedWords := st.lines.flatten.length + st.cur.length
    let remaining := words.drop usedWords
    let lastLine := if remaining = [] then st.cur else greedyExtend maxChars st.cur remaining
    st.lines ++ [lastLine]
  else st.lines

/-- The lines produced by `wrapByChars`, as word lists. -/
def wrapLines (text : String) (maxChars maxLines : Nat) : List (List String) :=
  let ws := jsWords text
  wrapAfter maxChars maxLines ws (wrapLoop maxChars maxLines ws ⟨[], []⟩)

/-- The function `wrapByChars` (server.js lines 46-89): empty collapsed input gives `""`,
no pushed lines gives the collapsed input back, otherwise the lines joined
with the literal two-character ASS line break `\N`. -/
def wrapByChars (text : String) (maxChars maxLines : Nat) : String :=
  let ws := jsWords text
  if ws = [] then ""
  else
    let lines := wrapLines text maxChars maxLines
    if lines = [] then String.intercalate " " ws
    else String.intercalate "\\N" (lines.map (String.intercalate " "))

/-!
## Segment planning and render-plan arithmetic (server.js lines 288-337, 424-435)
-/

/-- The four planned segment durations plus the (possibly extended)
effective timeline duration. -/
structure SegPlan where
  seg1 : Int
  seg2 : Int
  seg3 : Int
  seg4 : Int
  effMs : Int
deriving DecidableEq, Repr

/-- Fallback effective duration (server.js lines 295-299): the last
normalized caption's end time when positive, else 15000. -/
def effFallback (caps : List ScaledCaption) : Int :=
  let lastEnd := ((caps.getLast?).map ScaledCaption.end_ms).getD 0
  if 0 < lastEnd then lastEnd else 15000

/-- The value `effectiveAudioMs` (server.js lines 295-299): the probed duration when
finite and positive, else the fallback. -/
def effectiveAudioMs (audioMs : Option Int) (caps : List ScaledCaption) : Int :=
  match audioMs with
  | some a => if a ≤ 0 then effFallback caps else a
  | none => effFallback caps

/-- The segment planner (server.js lines 309-333): with at least 7 captions
the boundaries are the end times of captions 1, 3, 5, 7 (1-indexed) and the
timeline is extended to at least the last boundary; otherwise an equal
four-way split of the effective duration. -/
def planSegments (caps : List ScaledCaption) (eff : Int) : SegPlan :=
  if 7 ≤ caps.length then
    let t1 := (caps.getD 0 ⟨0, 0, ""⟩).end_ms
    let t3 := (caps.getD 2 ⟨0, 0, ""⟩).end_ms
    let t5 := (caps.getD 4 ⟨0, 0, ""⟩).end_ms
    let t7 := (caps.getD 6 ⟨0, 0, ""⟩).end_ms
    ⟨max 1 t1, max 1 (t3 - t1), max 1 (t5 - t3), max 1 (t7 - t5), max eff t7⟩
  else
    let part := Int.ediv eff 4
    let s1 := max 1 part
    let s2 := max 1 part
    let s3 := max 1 part
    ⟨s1, s2, s3, max 1 (eff - s1 - s2 - s3), eff⟩

/-- The fixed crossfade duration in seconds (`xfadeDur = 0.30`). -/
def xfadeDurQ : ℚ := 0.30

/-- The crossfade guard in ms: `Math.ceil(xfadeDur * 1000) + 1`. -/
def xfadeGuardMs : Int := ⌈xfadeDurQ * 1000⌉ + 1

/-- Guard applied to segments 1-3 (server.js lines 428-430). -/
def safeSegEarly (s : Int) : Int := max s xfadeGuardMs

/-- Guard applied to segment 4 (server.js line 431). -/
def safeSegLast (s : Int) : Int := max s 1

/-- The value `slideshowMs` (server.js line 335): built from the *unguarded* planned
segments. -/
def slideshowMs (s1 s2 s3 s4 : Int) : Int := max 1 (s1 + s2 + s3 + s4)

/-- The value `endCardDurMs` (server.js line 336): clamped to be nonnegative. -/
def endCardClampMs (e : Int) : Int := max 0 e

/-- The value `totalMs` (server.js line 337). -/
def totalMs (s1 s2 s3 s4 e : Int) : Int :=
  slideshowMs s1 s2 s3 s4 + endCardClampMs e

/-- First crossfade offset in seconds (server.js line 433), applied to the
guarded first segment. -/
def off1 (safe1 : Int) : ℚ := max 0.001 ((safe1 : ℚ) / 1000 - xfadeDurQ)

/-- Second crossfade offset (server.js line 434). -/
def off2 (safe1 safe2 : Int) : ℚ :=
  max 0.001 (((safe1 + safe2 : Int) : ℚ) / 1000 - 2 * xfadeDurQ)

/-- Third crossfade offset (server.js line 435). -/
def off3 (safe1 safe2 safe3 : Int) : ℚ :=
  max 0.001 (((safe1 + safe2 + safe3 : Int) : ℚ) / 1000 - 3 * xfadeDurQ)

/-!
## Subtitle cue building (server.js lines 36-44, 342-420)
-/

/-- The function `msToAssTime` (server.js lines 389-398): clamp below at 0, truncate to
centiseconds, render as `H:MM:SS.CC`. -/
def msToAssTime (ms : Int) : String :=
  let t := (max 0 ms).toNat
  let cs := t / 10
  let hh := cs / 360000
  let mm := (cs % 360000) / 6000
  let ss := (cs % 6000) / 100
  let cc := cs % 100
  let pad2 := fun (n : Nat) => if n < 10 then "0" ++ toString n else toString n
  toString hh ++ ":" ++ pad2 mm ++ ":" ++ pad2 ss ++ "." ++ pad2 cc

/-- The function `assEscape` (server.js lines 36-44): collapse whitespace, trim, then
escape backslash and the two brace characters. -/
def assEscape (s : String) : String :=
  let collapsed := String.intercalate " " (jsWords s)
  String.mk ((collapsed.data.map fun c =>
    if c = '\\' then ['\\', '\\']
    else if c = '\x7b' then ['\\', '\x7b']
    else if c = '\x7d' then ['\\', '\x7d']
    else [c]).flatten)

/-- The two ASS styles used for cues. -/
inductive CueStyle
  | title
  | caption
deriving DecidableEq, Repr

/-- One dialogue cue: style, start/end timestamps, wrapped escaped text. -/
structure Cue where
  style : CueStyle
  startTime : String
  stopTime : String
  wrapped : String
deriving DecidableEq, Repr

/-- Title wrap budget (server.js lines 367-368). -/
def titleMaxCharsPerLine : Nat := 12

/-- Title line limit. -/
def titleMaxLines : Nat := 6

/-- Caption wrap budget (server.js lines 370-371). -/
def capMaxCharsPerLine : Nat := 18

/-- Caption line limit. -/
def capMaxLines : Nat := 5

/-- The cue-building loop (server.js lines 406-420): the first caption gets
the `Title` style and budget, all others the `Caption` style and budget. -/
def buildCues (caps : List ScaledCaption) : List Cue :=
  caps.enum.map fun p =>
    if p.1 = 0 then
      ⟨CueStyle.title, msToAssTime p.2.start_ms, msToAssTime p.2.end_ms,
        wrapByChars (assEscape p.2.text) titleMaxCharsPerLine titleMaxLines⟩
    else
      ⟨CueStyle.caption, msToAssTime p.2.start_ms, msToAssTime p.2.end_ms,
        wrapByChars (assEscape p.2.text) capMaxCharsPerLine capMaxLines⟩

/-- View a normalized caption as a raw one (feeding a normalizer output back
into the normalizer). -/
def toRaw (c : ScaledCaption) : RawCaption := ⟨some c.start_ms, some c.end_ms, c.text⟩

/-!
## Bridge lemmas
-/

/-- Floor of an integer quotient over `ℚ` is Euclidean integer division
(for a positive divisor). -/
theorem floor_ratCast_div_pos (p q : Int) (h : 0 < q) :
    ⌊(p : ℚ) / (q : ℚ)⌋ = Int.ediv p q := by
  have hq : ((q.toNat : ℕ) : ℤ) = q := Int.toNat_of_nonneg h.le
  have hq2 : ((q.toNat : ℕ) : ℚ) = (q : ℚ) := by exact_mod_cast hq
  rw [← hq2, Rat.floor_intCast_div_natCast]
  show Int.ediv p ((q.toNat : ℕ) : ℤ) = Int.ediv p q
  rw [hq]

/-- The integer-arithmetic scaling round agrees with the ideal
`Math.round(d * (audioMs / totalDur))` over `ℚ`. -/
theorem jsRoundScale_eq_jsRound (d audioMs totalDur : Int) (h : 0 < totalDur) :
    jsRoundScale d audioMs totalDur =
      jsRound ((d : ℚ) * ((audioMs : ℚ) / (totalDur : ℚ))) := by
  have h2 : (0 : ℚ) < (totalDur : ℚ) := by exact_mod_cast h
  have h3 : (totalDur : ℚ) ≠ 0 := ne_of_gt h2
  have key : (d : ℚ) * ((audioMs : ℚ) / (totalDur : ℚ)) + 1/2
      = ((2 * d * audioMs + totalDur : Int) : ℚ) / ((2 * totalDur : Int) : ℚ) := by
    push_cast
    field_simp
    ring
  unfold jsRoundScale jsRound
  rw [key, floor_ratCast_div_pos _ _ (by linarith)]

/-- The crossfade guard `Math.ceil(0.30 * 1000) + 1` is 301 ms. -/
theorem xfadeGuardMs_eq : xfadeGuardMs = 301 := by
  have h1 : (xfadeDurQ * 1000 : ℚ) = ((300 : ℤ) : ℚ) := by norm_num [xfadeDurQ]
  unfold xfadeGuardMs
  rw [h1, Int.ceil_intCast]
  norm_num

/-!
## C9 — non-array captions input
-/

/-- C9: if the captions argument is not an array at all, the normalizer
returns the empty list; the whole-input type failure is absorbed silently. -/
theorem normalize_non_array (audioMs : Option Int) :
    normalizeAndScaleCaptions none audioMs = [] := rfl

/-!
## C4 — the minimum-segment floor
-/

/-- The minimum-segment floor as the spec words it (§4.1.c), conditions read
over exact division: 600 by default; 80 when `T / N` is `≤ 0`;
`max 80 ⌊T / N⌋` when `600 > T / N`. -/
def specMinSeg (T : Int) (n : Nat) : Int :=
  if (T : ℚ) / (n : ℚ) ≤ 0 then 80
  else if 600 > (T : ℚ) / (n : ℚ) then max 80 ⌊(T : ℚ) / (n : ℚ)⌋
  else 600

/-- C4: for every known positive target `T` and entry count `N ≥ 1`, the
minimum-segment floor computed during scaling matches the spec's piecewise
description (`computeMinSeg` reads `T / N` as `Math.floor(audioMs / n)`,
`specMinSeg` as exact division; they agree). -/
theorem computeMinSeg_matches_spec (T : Int) (n : Nat) (hT : 0 < T) (hn : 1 ≤ n) :
    computeMinSeg T n = specMinSeg T n := by
  have hn0 : (0 : ℚ) < (n : ℚ) := by exact_mod_cast hn
  have hT0 : (0 : ℚ) < (T : ℚ) := by exact_mod_cast hT
  have hq : 0 < (T : ℚ) / (n : ℚ) := div_pos hT0 hn0
  have hfl : ⌊(T : ℚ) / (n : ℚ)⌋ = Int.ediv T (n : Int) := by
    have h := floor_ratCast_div_pos T (n : Int) (by exact_mod_cast hn)
    rw [← h]
    norm_num
  have hcast : (((600 : ℤ)) : ℚ) = (600 : ℚ) := by norm_num
  unfold computeMinSeg specMinSeg
  rw [if_neg (not_le.mpr hq)]
  by_cases h1 : Int.ediv T (n : Int) ≤ 0
  · rw [if_pos h1]
    have hlt : (T : ℚ) / (n : ℚ) < 600 := by
      have h2 : ⌊(T : ℚ) / (n : ℚ)⌋ < (600 : ℤ) := by rw [hfl]; omega
      have := Int.floor_lt.mp h2
      rwa [hcast] at this
    rw [if_pos hlt, hfl]
    omega
  · rw [if_neg h1]
    by_cases h2 : Int.ediv T (n : Int) < 600
    · have hlt : (T : ℚ) / (n : ℚ) < 600 := by
        have h3 : ⌊(T : ℚ) / (n : ℚ)⌋ < (600 : ℤ) := by rw [hfl]; omega
        have := Int.floor_lt.mp h3
        rwa [hcast] at this
      rw [if_pos h2, if_pos hlt, hfl]
    · have hge : ¬ ((T : ℚ) / (n : ℚ) < 600) := by
        have h3 : (600 : ℤ) ≤ ⌊(T : ℚ) / (n : ℚ)⌋ := by rw [hfl]; omega
        have := Int.le_floor.mp h3
        rw [hcast] at this
        exact not_lt.mpr this
      rw [if_neg h2, if_neg hge]

/-- Witness for C4 at `T = 1000`, `N = 2` (spec scenario 3's floor). -/
theorem computeMinSeg_matches_spec_witness :
    computeMinSeg 1000 2 = specMinSeg 1000 2 ∧ computeMinSeg 1000 2 = 500 := by
  have h := computeMinSeg_matches_spec 1000 2 (by decide) (by decide)
  exact ⟨h, by decide⟩

/-!
## C6 — crossfade guards and offsets
-/

/-- C6: segments 1-3 are guarded to at least `crossfadeDuration + 1 = 301` ms
and segment 4 is not; each offset `k = 1..3` equals
`max(0.001, (sum of first k guarded segments)/1000 - k * 0.30)` and is
strictly positive, hence never negative. -/
theorem crossfade_offsets_guarded (s1 s2 s3 s4 : Int) :
    safeSegEarly s1 = max s1 301 ∧ safeSegEarly s2 = max s2 301 ∧
    safeSegEarly s3 = max s3 301 ∧
    301 ≤ safeSegEarly s1 ∧ 301 ≤ safeSegEarly s2 ∧ 301 ≤ safeSegEarly s3 ∧
    safeSegLast s4 = max s4 1 ∧
    off1 (safeSegEarly s1) =
      max 0.001 (((safeSegEarly s1 : Int) : ℚ) / 1000 - 1 * xfadeDurQ) ∧
    off2 (safeSegEarly s1) (safeSegEarly s2) =
      max 0.001 (((safeSegEarly s1 + safeSegEarly s2 : Int) : ℚ) / 1000 - 2 * xfadeDurQ) ∧
    off3 (safeSegEarly s1) (safeSegEarly s2) (safeSegEarly s3) =
      max 0.001 (((safeSegEarly s1 + safeSegEarly s2 + safeSegEarly s3 : Int) : ℚ) / 1000
        - 3 * xfadeDurQ) ∧
    0 < off1 (safeSegEarly s1) ∧
    0 < off2 (safeSegEarly s1) (safeSegEarly s2) ∧
    0 < off3 (safeSegEarly s1) (safeSegEarly s2) (safeSegEarly s3) := by
  have hpos : (0 : ℚ) < 0.001 := by norm_num
  refine ⟨?_, ?_, ?_, ?_, ?_, ?_, rfl, ?_, rfl, rfl, ?_, ?_, ?_⟩
  · unfold safeSegEarly; rw [xfadeGuardMs_eq]
  · unfold safeSegEarly; rw [xfadeGuardMs_eq]
  · unfold safeSegEarly; rw [xfadeGuardMs_eq]
  · unfold safeSegEarly; rw [xfadeGuardMs_eq]; exact le_max_right _ _
  · unfold safeSegEarly; rw [xfadeGuardMs_eq]; exact le_max_right _ _
  · unfold safeSegEarly; rw [xfadeGuardMs_eq]; exact le_max_right _ _
  · unfold off1; rw [one_mul]
  · exact lt_of_lt_of_le hpos (le_max_left _ _)
  · exact lt_of_lt_of_le hpos (le_max_left _ _)
  · exact lt_of_lt_of_le hpos (le_max_left _ _)

/-!
## C3 — slideshow and total duration
-/

/-- Seven raw captions of 100 ms each; untimed layout gives end times
100, 200, ..., 700, so the planner produces segments 100/200/200/200. -/
def demoCaps7 : List RawCaption :=
  [⟨some 0, some 100, "a"⟩, ⟨some 0, some 100, "a"⟩, ⟨some 0, some 100, "a"⟩,
   ⟨some 0, some 100, "a"⟩, ⟨some 0, some 100, "a"⟩, ⟨some 0, some 100, "a"⟩,
   ⟨some 0, some 100, "a"⟩]

/-- C3 counterexample: on a reachable plan (seven 100 ms captions, unknown
audio duration) the slideshow duration used by the code is
`max(1, seg1+seg2+seg3+seg4) = 700` of the *unguarded* segments, while the
sum of the four guarded segment durations is `301*3 + 200 = 1103`; the two
differ, so the claim's "sum of the four guarded segment durations" is wrong. -/
theorem slideshowMs_unguarded_cex :
    planSegments (normalizeAndScaleCaptions (some demoCaps7) none)
        (effectiveAudioMs none (normalizeAndScaleCaptions (some demoCaps7) none)) =
      ⟨100, 200, 200, 200, 700⟩ ∧
    slideshowMs 100 200 200 200 = 700 ∧
    safeSegEarly 100 + safeSegEarly 200 + safeSegEarly 200 + safeSegLast 200 = 1103 ∧
    (700 : Int) ≠ 1103 := by
  refine ⟨by decide, by decide, ?_, by decide⟩
  simp only [safeSegEarly, safeSegLast, xfadeGuardMs_eq]
  decide

/-- C3 amended: the slideshow duration equals `max 1` of the sum of the four
*unguarded* planned segments — hence the plain sum whenever each planned
segment is at least 1 ms, as the planner guarantees — and the total duration
is the slideshow duration plus the clamped end-card duration. -/
theorem slideshowMs_totalMs_formula (s1 s2 s3 s4 e : Int)
    (h1 : 1 ≤ s1) (h2 : 1 ≤ s2) (h3 : 1 ≤ s3) (h4 : 1 ≤ s4) :
    slideshowMs s1 s2 s3 s4 = s1 + s2 + s3 + s4 ∧
    totalMs s1 s2 s3 s4 e = s1 + s2 + s3 + s4 + max 0 e := by
  have hsum : (1 : ℤ) ≤ s1 + s2 + s3 + s4 := by linarith
  constructor
  · exact max_eq_right hsum
  · unfold totalMs endCardClampMs slideshowMs
    rw [max_eq_right hsum]

/-- Witness for C3's amended claim at segments 100/200/200/200 and end card
4000. -/
theorem slideshowMs_totalMs_formula_witness :
    slideshowMs 100 200 200 200 = 700 ∧ totalMs 100 200 200 200 4000 = 4700 := by
  have h := slideshowMs_totalMs_formula 100 200 200 200 4000
    (by decide) (by decide) (by decide) (by decide)
  exact ⟨h.1.trans (by decide), h.2.trans (by decide)⟩

/-!
## C5 — the segment planner's contract
-/

/-- C5: the planner always returns four segments of at least 1 ms; with at
least 7 captions the segments are the differences of the end times of
captions 1, 3, 5, 7 (1-indexed), each floored to 1 ms, and the effective
duration is extended to at least the end of caption 7; otherwise the
fallback duration is split as three `floor(total/4)` parts (floored to
1 ms) with the fourth absorbing the remainder. -/
theorem planSegments_contract (caps : List ScaledCaption) (eff : Int) :
    1 ≤ (planSegments caps eff).seg1 ∧ 1 ≤ (planSegments caps eff).seg2 ∧
    1 ≤ (planSegments caps eff).seg3 ∧ 1 ≤ (planSegments caps eff).seg4 ∧
    (7 ≤ caps.length →
      planSegments caps eff =
        ⟨max 1 (caps.getD 0 ⟨0, 0, ""⟩).end_ms,
         max 1 ((caps.getD 2 ⟨0, 0, ""⟩).end_ms - (caps.getD 0 ⟨0, 0, ""⟩).end_ms),
         max 1 ((caps.getD 4 ⟨0, 0, ""⟩).end_ms - (caps.getD 2 ⟨0, 0, ""⟩).end_ms),
         max 1 ((caps.getD 6 ⟨0, 0, ""⟩).end_ms - (caps.getD 4 ⟨0, 0, ""⟩).end_ms),
         max eff (caps.getD 6 ⟨0, 0, ""⟩).end_ms⟩ ∧
      (caps.getD 6 ⟨0, 0, ""⟩).end_ms ≤ (planSegments caps eff).effMs) ∧
    (caps.length < 7 →
      planSegments caps eff =
        ⟨max 1 (Int.ediv eff 4), max 1 (Int.ediv eff 4), max 1 (Int.ediv eff 4),
         max 1 (eff - max 1 (Int.ediv eff 4) - max 1 (Int.ediv eff 4)
           - max 1 (Int.ediv eff 4)),
         eff⟩) := by
  by_cases h : 7 ≤ caps.length
  · have hp : planSegments caps eff =
        ⟨max 1 (caps.getD 0 ⟨0, 0, ""⟩).end_ms,
         max 1 ((caps.getD 2 ⟨0, 0, ""⟩).end_ms - (caps.getD 0 ⟨0, 0, ""⟩).end_ms),
         max 1 ((caps.getD 4 ⟨0, 0, ""⟩).end_ms - (caps.getD 2 ⟨0, 0, ""⟩).end_ms),
         max 1 ((caps.getD 6 ⟨0, 0, ""⟩).end_ms - (caps.getD 4 ⟨0, 0, ""⟩).end_ms),
         max eff (caps.getD 6 ⟨0, 0, ""⟩).end_ms⟩ := by
      unfold planSegments
      rw [if_pos h]
    rw [hp]
    exact ⟨le_max_left _ _, le_max_left _ _, le_max_left _ _, le_max_left _ _,
      fun _ => ⟨rfl, le_max_right _ _⟩, fun hlt => absurd h (by omega)⟩
  · have hp : planSegments caps eff =
        ⟨max 1 (Int.ediv eff 4), max 1 (Int.ediv eff 4), max 1 (Int.ediv eff 4),
         max 1 (eff - max 1 (Int.ediv eff 4) - max 1 (Int.ediv eff 4)
           - max 1 (Int.ediv eff 4)),
         eff⟩ := by
      unfold planSegments
      rw [if_neg h]
    rw [hp]
    exact ⟨le_max_left _ _, le_max_left _ _, le_max_left _ _, le_max_left _ _,
      fun h7 => absurd h7 h, fun _ => rfl⟩

/-- Seven normalized captions with end times 100, ..., 700. -/
def demoScaled7 : List ScaledCaption :=
  [⟨0, 100, "a"⟩, ⟨100, 200, "a"⟩, ⟨200, 300, "a"⟩, ⟨300, 400, "a"⟩,
   ⟨400, 500, "a"⟩, ⟨500, 600, "a"⟩, ⟨600, 700, "a"⟩]

/-- Witness for C5 on a concrete seven-caption list. -/
theorem planSegments_contract_witness :
    1 ≤ (planSegments demoScaled7 500).seg1 ∧
    planSegments demoScaled7 500 = ⟨100, 200, 200, 200, 700⟩ := by
  have h := planSegments_contract demoScaled7 500
  refine ⟨h.1, ?_⟩
  have h7 := h.2.2.2.2.1 (by decide)
  exact h7.1.trans (by decide)

/-!
## C8 — degenerate inputs never fail
-/

/-- C8: the normalizer is a total function returning a list; when every
entry is filtered out, or when the total of the filtered durations is zero,
it returns the empty list; on an empty caption list the planner takes the
equal-split fallback and the cue builder emits zero cues. -/
theorem normalize_degenerate (caps : List RawCaption) (audioMs : Option Int) (eff : Int) :
    (filterItems caps = [] → normalizeAndScaleCaptions (some caps) audioMs = []) ∧
    (((filterItems caps).map fun it => max 1 it.1).sum = 0 →
      normalizeAndScaleCaptions (some caps) audioMs = []) ∧
    planSegments [] eff =
      ⟨max 1 (Int.ediv eff 4), max 1 (Int.ediv eff 4), max 1 (Int.ediv eff 4),
       max 1 (eff - max 1 (Int.ediv eff 4) - max 1 (Int.ediv eff 4)
         - max 1 (Int.ediv eff 4)),
       eff⟩ ∧
    buildCues [] = [] := by
  have hempty : filterItems caps = [] →
      normalizeAndScaleCaptions (some caps) audioMs = [] := by
    intro hcaps
    simp [normalizeAndScaleCaptions, hcaps]
  refine ⟨hempty, ?_, rfl, rfl⟩
  intro h
  apply hempty
  match hitems : filterItems caps with
  | [] => rfl
  | p :: ps =>
      exfalso
      rw [hitems] at h
      have h1 : (1 : ℤ) ≤ max 1 p.1 := le_max_left _ _
      have h2 : (0 : ℤ) ≤ (ps.map fun it => max 1 it.1).sum := by
        apply List.sum_nonneg
        intro x hx
        obtain ⟨y, _, rfl⟩ := List.mem_map.mp hx
        have h3 : (1 : ℤ) ≤ max 1 y.1 := le_max_left _ _
        linarith
      simp only [List.map_cons, List.sum_cons] at h
      linarith

/-- Witness for C8: the empty caption list. -/
theorem normalize_degenerate_witness :
    normalizeAndScaleCaptions (some ([] : List RawCaption)) (some 1000) = [] ∧
    planSegments [] 8000 = ⟨2000, 2000, 2000, 2000, 8000⟩ ∧
    buildCues [] = [] := by
  have h := normalize_degenerate [] (some 1000) 8000
  exact ⟨h.1 rfl, h.2.2.1.trans (by decide), h.2.2.2⟩

/-!
## C10 — the fallback effective duration
-/

/-- C10: when the probed audio duration is unknown (`none`) or non-positive,
the effective duration is the last normalized caption's end time when that
is positive, and exactly 15000 ms when the normalized list is empty. -/
theorem effectiveAudioMs_fallback_spec (a : Int) (caps : List ScaledCaption)
    (c : ScaledCaption) :
    (a ≤ 0 → caps.getLast? = some c → 0 < c.end_ms →
      effectiveAudioMs (some a) caps = c.end_ms) ∧
    (caps.getLast? = some c → 0 < c.end_ms → effectiveAudioMs none caps = c.end_ms) ∧
    (a ≤ 0 → effectiveAudioMs (some a) [] = 15000) ∧
    effectiveAudioMs none [] = 15000 := by
  refine ⟨?_, ?_, ?_, rfl⟩
  · intro ha hlast hpos
    simp [effectiveAudioMs, effFallback, ha, hlast, hpos]
  · intro hlast hpos
    simp [effectiveAudioMs, effFallback, hlast, hpos]
  · intro ha
    simp [effectiveAudioMs, effFallback, ha]

/-- Witness for C10 at a one-caption list ending at 500 ms. -/
theorem effectiveAudioMs_fallback_spec_witness :
    effectiveAudioMs (some 0) [(⟨0, 500, "x"⟩ : ScaledCaption)] = 500 ∧
    effectiveAudioMs none [(⟨0, 500, "x"⟩ : ScaledCaption)] = 500 ∧
    effectiveAudioMs (some 0) [] = 15000 ∧
    effectiveAudioMs none [] = 15000 := by
  have h := effectiveAudioMs_fallback_spec 0 [(⟨0, 500, "x"⟩ : ScaledCaption)] ⟨0, 500, "x"⟩
  exact ⟨h.1 (by decide) (by decide) (by decide), h.2.1 (by decide) (by decide),
    h.2.2.1 (by decide), h.2.2.2⟩

/-!
## Counterexamples for C1, C2, C7
-/

/-- Three raw captions of 1000 ms each; with tiny targets the overflow
redistribution drives every duration to 1 ms and the forced final end time
produces a non-positive (even negative) final duration. -/
def demoCaps3 : List RawCaption :=
  [⟨some 0, some 1000, "a"⟩, ⟨some 0, some 1000, "b"⟩, ⟨some 0, some 1000, "c"⟩]

/-- C1 counterexample: with the three 1000 ms captions and target `T = 1`
(positive, and the filtered list is non-empty, so the claim's premises
hold), the normalizer returns durations `[1, 1, -1]` — neither non-decreasing
nor non-negative, refuting the claim's "non-decreasing, non-negative
durations". -/
theorem normalize_durations_cex :
    (0 : Int) < 1 ∧ filterItems demoCaps3 ≠ [] ∧
    normalizeAndScaleCaptions (some demoCaps3) (some 1) =
      [⟨0, 1, "a"⟩, ⟨1, 2, "b"⟩, ⟨2, 1, "c"⟩] ∧
    ((normalizeAndScaleCaptions (some demoCaps3) (some 1)).map
      fun c => c.end_ms - c.start_ms) = [1, 1, -1] := by
  refine ⟨by decide, by decide, by decide, by decide⟩

/-- C2 counterexample: wrapping `"aaaa bbbb cccc dddd eeee"` with a 4-column
budget and 2 lines returns `"aaaa\Nbbbb"`: the word `"cccc"` (and everything
after it) is dropped, refuting "no text is ever lost". -/
theorem wrapByChars_drops_words_cex :
    wrapByChars "aaaa bbbb cccc dddd eeee" 4 2 = "aaaa\\Nbbbb" ∧
    "cccc" ∈ jsWords "aaaa bbbb cccc dddd eeee" ∧
    "cccc" ∉ (wrapLines "aaaa bbbb cccc dddd eeee" 4 2).flatten := by
  refine ⟨by decide, by decide, by decide⟩

/-- C7 counterexample: with the three 1000 ms captions and target `T = 2`
the normalizer output is `[(0,1), (1,2), (2,2)]` whose total duration is 2;
renormalizing that output against 2 drops the zero-length final entry and
returns a two-element list, so normalization is not idempotent on all of
its outputs. -/
theorem normalize_idem_cex :
    normalizeAndScaleCaptions (some demoCaps3) (some 2) =
      [⟨0, 1, "a"⟩, ⟨1, 2, "b"⟩, ⟨2, 2, "c"⟩] ∧
    normalizeAndScaleCaptions
        (some (([⟨0, 1, "a"⟩, ⟨1, 2, "b"⟩, ⟨2, 2, "c"⟩] : List ScaledCaption).map toRaw))
        (some 2) =
      [⟨0, 1, "a"⟩, ⟨1, 2, "b"⟩] ∧
    ([⟨0, 1, "a"⟩, ⟨1, 2, "b"⟩] : List ScaledCaption) ≠
      [⟨0, 1, "a"⟩, ⟨1, 2, "b"⟩, ⟨2, 2, "c"⟩] := by
  refine ⟨by decide, by decide, by decide⟩

/-!
## Structural lemmas about the output loop
-/

/-- The output loop returns a nonempty list on nonempty input. -/
theorem buildOut_ne_nil (T : Int) (ps : List (Int × String)) (cur : Int) (h : ps ≠ []) :
    buildOut T ps cur ≠ [] := by
  cases ps with
  | nil => exact absurd rfl h
  | cons p rest =>
      cases p with
      | mk d txt =>
        cases rest with
        | nil => simp [buildOut]
        | cons q rest' => simp [buildOut]

/-- The head of the output starts at the running cursor. -/
theorem buildOut_head_start (T : Int) (ps : List (Int × String)) (cur : Int)
    (h : ps ≠ []) :
    ∃ e txt, (buildOut T ps cur).head? = some ⟨cur, e, txt⟩ := by
  cases ps with
  | nil => exact absurd rfl h
  | cons p rest =>
      cases p with
      | mk d txt =>
        cases rest with
        | nil => exact ⟨T, txt, rfl⟩
        | cons q rest' => exact ⟨cur + max 1 d, txt, rfl⟩

/-- The last entry of the output ends exactly at the target (for any
default). -/
theorem buildOut_getLastD_end (T : Int) :
    ∀ (ps : List (Int × String)) (cur : Int), ps ≠ [] → ∀ d0 : ScaledCaption,
      ((buildOut T ps cur).getLastD d0).end_ms = T := by
  intro ps
  induction ps with
  | nil => intro cur h; exact absurd rfl h
  | cons p rest ih =>
      intro cur h d0
      cases p with
      | mk d txt =>
        cases rest with
        | nil => rfl
        | cons q rest' =>
            show ((⟨cur, cur + max 1 d, txt⟩ ::
              buildOut T (q :: rest') (cur + max 1 d)).getLastD d0).end_ms = T
            rw [List.getLastD_cons]
            exact ih (cur + max 1 d) (by simp) _

/-- The output is contiguous: each entry ends where the next starts. -/
theorem buildOut_chain_contig (T : Int) :
    ∀ (ps : List (Int × String)) (cur : Int),
      List.Chain' (fun a b => a.end_ms = b.start_ms) (buildOut T ps cur) := by
  intro ps
  induction ps with
  | nil => intro cur; simp [buildOut]
  | cons p rest ih =>
      intro cur
      cases p with
      | mk d txt =>
        cases rest with
        | nil => simp [buildOut]
        | cons q rest' =>
            show List.Chain' _ (⟨cur, cur + max 1 d, txt⟩ ::
              buildOut T (q :: rest') (cur + max 1 d))
            rw [List.chain'_cons']
            refine ⟨?_, ih (cur + max 1 d)⟩
            intro y hy
            obtain ⟨e, t, hh⟩ := buildOut_head_start T (q :: rest') (cur + max 1 d) (by simp)
            rw [Option.mem_def, hh] at hy
            cases hy
            rfl

/-- The output's start times strictly increase. -/
theorem buildOut_chain_starts (T : Int) :
    ∀ (ps : List (Int × String)) (cur : Int),
      List.Chain' (fun a b => a.start_ms < b.start_ms) (buildOut T ps cur) := by
  intro ps
  induction ps with
  | nil => intro cur; simp [buildOut]
  | cons p rest ih =>
      intro cur
      cases p with
      | mk d txt =>
        cases rest with
        | nil => simp [buildOut]
        | cons q rest' =>
            show List.Chain' _ (⟨cur, cur + max 1 d, txt⟩ ::
              buildOut T (q :: rest') (cur + max 1 d))
            rw [List.chain'_cons']
            refine ⟨?_, ih (cur + max 1 d)⟩
            intro y hy
            obtain ⟨e, t, hh⟩ := buildOut_head_start T (q :: rest') (cur + max 1 d) (by simp)
            rw [Option.mem_def, hh] at hy
            cases hy
            show cur < cur + max 1 d
            have h1 : (1 : ℤ) ≤ max 1 d := le_max_left _ _
            omega

/-- Every entry of the output except the last has duration at least 1 ms. -/
theorem buildOut_dropLast_durs (T : Int) :
    ∀ (ps : List (Int × String)) (cur : Int) (c : ScaledCaption),
      c ∈ (buildOut T ps cur).dropLast → 1 ≤ c.end_ms - c.start_ms := by
  intro ps
  induction ps with
  | nil => intro cur c hc; simp [buildOut] at hc
  | cons p rest ih =>
      intro cur c hc
      cases p with
      | mk d txt =>
        cases rest with
        | nil => simp [buildOut] at hc
        | cons q rest' =>
            rw [show buildOut T ((d, txt) :: q :: rest') cur = ⟨cur, cur + max 1 d, txt⟩ ::
              buildOut T (q :: rest') (cur + max 1 d) from rfl] at hc
            have hb : buildOut T (q :: rest') (cur + max 1 d) ≠ [] :=
              buildOut_ne_nil T _ _ (by simp)
            match hbo : buildOut T (q :: rest') (cur + max 1 d), hb with
            | b :: bs, _ =>
                rw [hbo, List.dropLast_cons₂, List.mem_cons] at hc
                rcases hc with hc | hc
                · subst hc
                  show (1 : ℤ) ≤ cur + max 1 d - cur
                  have h1 : (1 : ℤ) ≤ max 1 d := le_max_left _ _
                  omega
                · exact ih (cur + max 1 d) c (by rw [hbo]; exact hc)

/-- The output's texts are the input texts in order. -/
theorem buildOut_texts (T : Int) :
    ∀ (ps : List (Int × String)) (cur : Int),
      (buildOut T ps cur).map ScaledCaption.text = ps.map Prod.snd := by
  intro ps
  induction ps with
  | nil => intro cur; rfl
  | cons p rest ih =>
      intro cur
      cases p with
      | mk d txt =>
        cases rest with
        | nil => rfl
        | cons q rest' =>
            show ScaledCaption.text ⟨cur, cur + max 1 d, txt⟩ ::
                (buildOut T (q :: rest') (cur + max 1 d)).map ScaledCaption.text
              = txt :: (q :: rest').map Prod.snd
            rw [ih]

/-- The output has the same length as the input. -/
theorem buildOut_length (T : Int) :
    ∀ (ps : List (Int × String)) (cur : Int), (buildOut T ps cur).length = ps.length := by
  intro ps
  induction ps with
  | nil => intro cur; rfl
  | cons p rest ih =>
      intro cur
      cases p with
      | mk d txt =>
        cases rest with
        | nil => rfl
        | cons q rest' =>
            show (buildOut T (q :: rest') (cur + max 1 d)).length + 1
              = (q :: rest').length + 1
            rw [ih]

/-- Telescoping: the signed durations of a contiguous list sum to the last
end time minus the first start time. -/
theorem chain_sum_durs :
    ∀ (out : List ScaledCaption) (c : ScaledCaption),
      List.Chain' (fun a b => a.end_ms = b.start_ms) (c :: out) →
      ((c :: out).map fun x => x.end_ms - x.start_ms).sum
        = ((c :: out).getLastD c).end_ms - c.start_ms := by
  intro out
  induction out with
  | nil => intro c _; simp
  | cons c2 rest ih =>
      intro c hchain
      rw [List.chain'_cons] at hchain
      have h2 := ih c2 hchain.2
      have hlast : ((c :: c2 :: rest).getLastD c).end_ms
          = ((c2 :: rest).getLastD c2).end_ms := by
        simp only [List.getLastD_cons]
      rw [List.map_cons, List.sum_cons, h2, hlast, hchain.1]
      ring

/-!
## Length preservation through the adjustment passes
-/

/-- A nonempty item list has positive clamped total duration. -/
theorem sum_max_one_pos (items : List (Int × String)) (h : items ≠ []) :
    0 < (items.map fun it => max 1 it.1).sum := by
  cases items with
  | nil => exact absurd rfl h
  | cons p ps =>
      have h2 : (0 : ℤ) ≤ (ps.map fun it => max 1 it.1).sum := by
        apply List.sum_nonneg
        intro x hx
        obtain ⟨y, _, rfl⟩ := List.mem_map.mp hx
        have h3 : (1 : ℤ) ≤ max 1 y.1 := le_max_left _ _
        linarith
      have h1 : (1 : ℤ) ≤ max 1 p.1 := le_max_left _ _
      simp only [List.map_cons, List.sum_cons]
      linarith

/-- The first reduction pass keeps the number of durations. -/
theorem reducePass1_length (minSeg : Int) :
    ∀ (is : List Nat) (durs : List Int) (over : Int),
      (reducePass1 minSeg is durs over).1.length = durs.length := by
  intro is
  induction is with
  | nil => intro durs over; rfl
  | cons i is ih =>
      intro durs over
      simp only [reducePass1]
      split_ifs
      · rfl
      · rw [ih, List.length_set]

/-- The second reduction pass keeps the number of durations. -/
theorem reducePass2_length :
    ∀ (durs : List Int) (over : Int), (reducePass2 durs over).1.length = durs.length := by
  intro durs
  induction durs with
  | nil => intro over; rfl
  | cons d ds ih =>
      intro over
      simp only [reducePass2]
      split_ifs <;> simp [ih]

/-- Adding the deficit to the last entry keeps the number of durations. -/
theorem addToLast_length : ∀ (xs : List Int) (a : Int),
    (addToLast xs a).length = xs.length := by
  intro xs
  induction xs with
  | nil => intro a; rfl
  | cons x xs ih =>
      intro a
      cases xs with
      | nil => rfl
      | cons y ys =>
          show (addToLast (y :: ys) a).length + 1 = (y :: ys).length + 1
          rw [ih]

/-- The adjusted durations are in bijection with the items. -/
theorem scaleTimedDurs_length (items : List (Int × String)) (a : Int) :
    (scaleTimedDurs items a).length = items.length := by
  simp only [scaleTimedDurs]
  split_ifs
  · rw [reducePass2_length, reducePass1_length, List.length_map]
  · rw [reducePass1_length, List.length_map]
  · rw [addToLast_length, List.length_map]
  · rw [List.length_map]

/-- On a known positive target with surviving items, the normalizer is the
output loop applied to the adjusted durations zipped with the texts. -/
theorem normalize_timed_eq (caps : List RawCaption) (T : Int)
    (hT : 0 < T) (hne : filterItems caps ≠ []) :
    normalizeAndScaleCaptions (some caps) (some T)
      = buildOut T ((scaleTimedDurs (filterItems caps) T).zip
          ((filterItems caps).map Prod.snd)) 0 := by
  have htot := sum_max_one_pos (filterItems caps) hne
  simp only [normalizeAndScaleCaptions]
  rw [if_neg hne, if_neg (not_le.mpr hT)]
  unfold scaleTimed
  rw [if_neg (not_le.mpr htot)]

/-- The zipped pair list driving the output loop is nonempty. -/
theorem timed_pairs_ne_nil (caps : List RawCaption) (T : Int)
    (hne : filterItems caps ≠ []) :
    (scaleTimedDurs (filterItems caps) T).zip ((filterItems caps).map Prod.snd) ≠ [] := by
  have hlen : ((scaleTimedDurs (filterItems caps) T).zip
      ((filterItems caps).map Prod.snd)).length = (filterItems caps).length := by
    rw [List.length_zip, scaleTimedDurs_length, List.length_map, min_self]
  have hpos : 0 < (filterItems caps).length := List.length_pos.mpr hne
  rw [← hlen] at hpos
  exact List.length_pos.mp hpos

/-- Everything the amended C1 needs, packaged at the output-loop level. -/
theorem buildOut_full_spec (T : Int) (ps : List (Int × String)) (h : ps ≠ []) :
    buildOut T ps 0 ≠ [] ∧
    ((buildOut T ps 0).headD ⟨0, 0, ""⟩).start_ms = 0 ∧
    ((buildOut T ps 0).getLastD ⟨0, 0, ""⟩).end_ms = T ∧
    List.Chain' (fun a b => a.end_ms = b.start_ms) (buildOut T ps 0) ∧
    List.Chain' (fun a b => a.start_ms < b.start_ms) (buildOut T ps 0) ∧
    ((buildOut T ps 0).map fun c => c.end_ms - c.start_ms).sum = T ∧
    (∀ c ∈ (buildOut T ps 0).dropLast, 1 ≤ c.end_ms - c.start_ms) := by
  refine ⟨buildOut_ne_nil T ps 0 h, ?_, buildOut_getLastD_end T ps 0 h _,
    buildOut_chain_contig T ps 0, buildOut_chain_starts T ps 0, ?_,
    fun c hc => buildOut_dropLast_durs T ps 0 c hc⟩
  · obtain ⟨e, t, hh⟩ := buildOut_head_start T ps 0 h
    rw [List.headD_eq_head?, hh]
    rfl
  · cases hbo : buildOut T ps 0 with
    | nil => exact absurd hbo (buildOut_ne_nil T ps 0 h)
    | cons c rest =>
        have hchain := buildOut_chain_contig T ps 0
        rw [hbo] at hchain
        have hsum := chain_sum_durs rest c hchain
        have hlastT := buildOut_getLastD_end T ps 0 h c
        rw [hbo] at hlastT
        have hstart : c.start_ms = 0 := by
          obtain ⟨e, t, hh⟩ := buildOut_head_start T ps 0 h
          rw [hbo, List.head?_cons, Option.some_inj] at hh
          rw [hh]
        rw [hsum, hlastT, hstart]
        ring

/-- C1 amended: for a non-empty filtered list and known positive target `T`,
the normalized output is nonempty, starts at 0, ends exactly at `T`, is
contiguous with strictly increasing start times, its signed durations sum to
`T` exactly, and every duration except possibly the last is at least 1 ms
(the counterexample shows the last can be negative, and durations need not
be non-decreasing). -/
theorem normalize_fills_target (caps : List RawCaption) (T : Int)
    (hT : 0 < T) (hne : filterItems caps ≠ []) :
    normalizeAndScaleCaptions (some caps) (some T) ≠ [] ∧
    ((normalizeAndScaleCaptions (some caps) (some T)).headD ⟨0, 0, ""⟩).start_ms = 0 ∧
    ((normalizeAndScaleCaptions (some caps) (some T)).getLastD ⟨0, 0, ""⟩).end_ms = T ∧
    List.Chain' (fun a b => a.end_ms = b.start_ms)
      (normalizeAndScaleCaptions (some caps) (some T)) ∧
    List.Chain' (fun a b => a.start_ms < b.start_ms)
      (normalizeAndScaleCaptions (some caps) (some T)) ∧
    ((normalizeAndScaleCaptions (some caps) (some T)).map
      fun c => c.end_ms - c.start_ms).sum = T ∧
    (∀ c ∈ (normalizeAndScaleCaptions (some caps) (some T)).dropLast,
      1 ≤ c.end_ms - c.start_ms) := by
  rw [normalize_timed_eq caps T hT hne]
  exact buildOut_full_spec T _ (timed_pairs_ne_nil caps T hne)

/-- Witness for C1's amended claim at spec scenario 1: one 2000 ms caption,
target 4000 ms. -/
theorem normalize_fills_target_witness :
    normalizeAndScaleCaptions (some [⟨some 0, some 2000, "Hello"⟩]) (some 4000) ≠ [] ∧
    ((normalizeAndScaleCaptions (some [⟨some 0, some 2000, "Hello"⟩])
      (some 4000)).headD ⟨0, 0, ""⟩).start_ms = 0 ∧
    ((normalizeAndScaleCaptions (some [⟨some 0, some 2000, "Hello"⟩])
      (some 4000)).getLastD ⟨0, 0, ""⟩).end_ms = 4000 ∧
    List.Chain' (fun a b => a.end_ms = b.start_ms)
      (normalizeAndScaleCaptions (some [⟨some 0, some 2000, "Hello"⟩]) (some 4000)) ∧
    List.Chain' (fun a b => a.start_ms < b.start_ms)
      (normalizeAndScaleCaptions (some [⟨some 0, some 2000, "Hello"⟩]) (some 4000)) ∧
    ((normalizeAndScaleCaptions (some [⟨some 0, some 2000, "Hello"⟩])
      (some 4000)).map fun c => c.end_ms - c.start_ms).sum = 4000 ∧
    (∀ c ∈ (normalizeAndScaleCaptions (some [⟨some 0, some 2000, "Hello"⟩])
      (some 4000)).dropLast, 1 ≤ c.end_ms - c.start_ms) :=
  normalize_fills_target [⟨some 0, some 2000, "Hello"⟩] 4000 (by decide) (by decide)

/-!
## C2 amended — the wrapper emits a prefix of the input's words
-/

/-- The greedy final-line loop appends some prefix of the remaining words. -/
theorem greedyExtend_take (maxChars : Nat) :
    ∀ (rest lastLine : List String), ∃ j,
      greedyExtend maxChars lastLine rest = lastLine ++ rest.take j := by
  intro rest
  induction rest with
  | nil => intro lastLine; exact ⟨0, by simp [greedyExtend]⟩
  | cons w ws ih =>
      intro lastLine
      simp only [greedyExtend]
      split_ifs
      · obtain ⟨j, hj⟩ := ih (lastLine ++ [w])
        refine ⟨j + 1, ?_⟩
        rw [hj, List.take_succ_cons]
        simp
      · exact ⟨0, by simp⟩

/-- Invariant of the main wrapping loop: the pushed lines plus the current
line always hold the state's words followed by a prefix of the remaining
words. -/
theorem wrapLoop_flat (maxChars maxLines : Nat) :
    ∀ (rest : List String) (st : WrapState), ∃ m,
      (wrapLoop maxChars maxLines rest st).lines.flatten
          ++ (wrapLoop maxChars maxLines rest st).cur
        = st.lines.flatten ++ st.cur ++ rest.take m := by
  intro rest
  induction rest with
  | nil => intro st; exact ⟨0, by simp [wrapLoop]⟩
  | cons w ws ih =>
      intro st
      simp only [wrapLoop]
      by_cases h1 : joinedLen (st.cur ++ [w]) ≤ maxChars
      · rw [if_pos h1]
        obtain ⟨m, hm⟩ := ih ⟨st.lines, st.cur ++ [w]⟩
        refine ⟨m + 1, ?_⟩
        rw [hm, List.take_succ_cons]
        simp
      · rw [if_neg h1]
        by_cases h3 : maxLines - 1 ≤
            (if st.cur = [] then st.lines else st.lines ++ [st.cur]).length
        · rw [if_pos h3]
          refine ⟨1, ?_⟩
          by_cases hc : st.cur = [] <;>
            simp [hc, List.take_succ_cons, List.flatten_append]
        · rw [if_neg h3]
          obtain ⟨m, hm⟩ :=
            ih ⟨if st.cur = [] then st.lines else st.lines ++ [st.cur], [w]⟩
          refine ⟨m + 1, ?_⟩
          rw [hm, List.take_succ_cons]
          by_cases hc : st.cur = [] <;>
            simp [hc, List.flatten_append]

/-- After the post-loop block, the emitted lines hold a prefix of the words. -/
theorem wrapAfter_flat (maxChars maxLines : Nat) (ws : List String) :
    ∃ k, (wrapAfter maxChars maxLines ws
        (wrapLoop maxChars maxLines ws ⟨[], []⟩)).flatten = ws.take k := by
  obtain ⟨m, hm0⟩ := wrapLoop_flat maxChars maxLines ws ⟨[], []⟩
  set st := wrapLoop maxChars maxLines ws ⟨[], []⟩ with hst
  have hm : st.lines.flatten ++ st.cur = ws.take m := by simpa using hm0
  have hused_eq : st.lines.flatten.length + st.cur.length = min m ws.length := by
    have h := congrArg List.length hm
    rwa [List.length_append, List.length_take] at h
  have husedle : st.lines.flatten.length + st.cur.length ≤ m := by
    rw [hused_eq]; exact min_le_left _ _
  have htake_used : ws.take (st.lines.flatten.length + st.cur.length)
      = st.lines.flatten ++ st.cur := by
    calc ws.take (st.lines.flatten.length + st.cur.length)
        = (ws.take m).take (st.lines.flatten.length + st.cur.length) := by
          rw [List.take_take, min_eq_left husedle]
      _ = (st.lines.flatten ++ st.cur).take (st.lines.flatten ++ st.cur).length := by
          congr 1 <;>
            first
              | exact hm.symm
              | rw [List.length_append]
      _ = st.lines.flatten ++ st.cur := List.take_length _
  simp only [wrapAfter]
  by_cases hg : st.cur ≠ [] ∧ st.lines.length < maxLines
  · rw [if_pos hg]
    by_cases hrem : ws.drop (st.lines.flatten.length + st.cur.length) = []
    · rw [if_pos hrem]
      refine ⟨st.lines.flatten.length + st.cur.length, ?_⟩
      rw [List.flatten_append, htake_used]
      simp
    · rw [if_neg hrem]
      obtain ⟨j, hj⟩ := greedyExtend_take maxChars
        (ws.drop (st.lines.flatten.length + st.cur.length)) st.cur
      refine ⟨st.lines.flatten.length + st.cur.length + j, ?_⟩
      rw [List.flatten_append, hj, List.take_add, htake_used]
      simp
  · rw [if_neg hg]
    refine ⟨st.lines.flatten.length, ?_⟩
    have h2 : (st.lines.flatten ++ st.cur).take st.lines.flatten.length
        = st.lines.flatten := List.take_left _ _
    calc st.lines.flatten
        = (ws.take m).take st.lines.flatten.length := by rw [← hm]; exact h2.symm
      _ = ws.take st.lines.flatten.length := by
          rw [List.take_take, min_eq_left (by omega)]

/-- C2 amended: the words of the wrapper's lines form, in order, a prefix of
the words of the whitespace-collapsed trimmed input — nothing is reordered
or invented, but the tail beyond the first non-fitting word of the final
line is dropped. -/
theorem wrapLines_words_take (text : String) (maxChars maxLines : Nat) :
    ∃ k, (wrapLines text maxChars maxLines).flatten = (jsWords text).take k := by
  unfold wrapLines
  exact wrapAfter_flat maxChars maxLines (jsWords text)

/-!
## Trim idempotence and filtered-text facts (toward C7)
-/

/-- Dropping a prefix predicate twice is the same as dropping it once. -/
theorem dropWhile_dropWhile {α : Type} (p : α → Bool) :
    ∀ (l : List α), (l.dropWhile p).dropWhile p = l.dropWhile p := by
  intro l
  induction l with
  | nil => rfl
  | cons a as ih =>
      by_cases h : p a = true
      · rw [List.dropWhile_cons, if_pos h]
        exact ih
      · rw [List.dropWhile_cons, if_neg h, List.dropWhile_cons, if_neg h]

/-- Dropping a prefix does not change the last element (when something is
left). -/
theorem getLast?_dropWhile {α : Type} (p : α → Bool) :
    ∀ (l : List α), l.dropWhile p ≠ [] → (l.dropWhile p).getLast? = l.getLast? := by
  intro l
  induction l with
  | nil => intro h; exact absurd rfl h
  | cons a as ih =>
      intro h
      by_cases hp : p a = true
      · rw [List.dropWhile_cons, if_pos hp] at h ⊢
        rw [ih h]
        have has : as ≠ [] := by
          intro hnil
          rw [hnil] at h
          exact h rfl
        cases as with
        | nil => exact absurd rfl has
        | cons b bs => rw [List.getLast?_cons_cons]
      · rw [List.dropWhile_cons, if_neg hp]

/-- The head surviving a `dropWhile` does not satisfy the predicate. -/
theorem head?_dropWhile_not {α : Type} (p : α → Bool) :
    ∀ (l : List α) (c : α), (l.dropWhile p).head? = some c → p c = false := by
  intro l
  induction l with
  | nil => intro c h; cases h
  | cons a as ih =>
      intro c h
      by_cases hp : p a = true
      · rw [List.dropWhile_cons, if_pos hp] at h
        exact ih c h
      · rw [List.dropWhile_cons, if_neg hp, List.head?_cons, Option.some_inj] at h
        cases hpa : p a with
        | true => exact absurd hpa hp
        | false => rw [← h]; exact hpa

/-- A list whose head does not satisfy the predicate is unchanged by
`dropWhile`. -/
theorem dropWhile_of_head_not {α : Type} (p : α → Bool) (l : List α)
    (h : ∀ c, l.head? = some c → p c = false) : l.dropWhile p = l := by
  cases l with
  | nil => rfl
  | cons a as =>
      have ha := h a rfl
      rw [List.dropWhile_cons, if_neg (by simp [ha])]

/-- Trimming is idempotent on character lists. -/
theorem trimChars_idem (l : List Char) : trimChars (trimChars l) = trimChars l := by
  unfold trimChars
  have hB : ((l.dropWhile jsIsWs).reverse.dropWhile jsIsWs).dropWhile jsIsWs
      = (l.dropWhile jsIsWs).reverse.dropWhile jsIsWs := dropWhile_dropWhile _ _
  have hT : (((l.dropWhile jsIsWs).reverse.dropWhile jsIsWs).reverse).dropWhile jsIsWs
      = ((l.dropWhile jsIsWs).reverse.dropWhile jsIsWs).reverse := by
    apply dropWhile_of_head_not
    intro c hc
    rw [List.head?_reverse] at hc
    have hBne : (l.dropWhile jsIsWs).reverse.dropWhile jsIsWs ≠ [] := by
      intro hnil
      rw [hnil] at hc
      cases hc
    rw [getLast?_dropWhile jsIsWs (l.dropWhile jsIsWs).reverse hBne,
      List.getLast?_reverse] at hc
    exact head?_dropWhile_not jsIsWs l c hc
  rw [hT, List.reverse_reverse, hB]

/-- JS `trim` is idempotent. -/
theorem jsTrim_idem (s : String) : jsTrim (jsTrim s) = jsTrim s := by
  unfold jsTrim
  rw [show (String.mk (trimChars s.data)).data = trimChars s.data from rfl, trimChars_idem]

/-- Every surviving filtered item carries a trim-fixed, nonempty text. -/
theorem filterItems_text_spec (caps : List RawCaption) (p : Int × String)
    (hp : p ∈ filterItems caps) : jsTrim p.2 = p.2 ∧ p.2 ≠ "" := by
  unfold filterItems at hp
  obtain ⟨a, _, ha⟩ := List.mem_filterMap.mp hp
  rcases a with ⟨os, oe, t⟩
  cases os with
  | none => cases ha
  | some s =>
      cases oe with
      | none => cases ha
      | some e =>
          have ha2 : (if e ≤ s then none
              else if jsTrim t = "" then none
              else some (e - s, jsTrim t)) = some p := ha
          split_ifs at ha2 with h1 h2
          rw [Option.some_inj] at ha2
          subst ha2
          exact ⟨jsTrim_idem t, h2⟩

/-- A `filterMap` that never drops is a `map`. -/
theorem filterMap_eq_map_of_some {α β : Type} (f : α → Option β) (g : α → β) :
    ∀ (l : List α), (∀ a ∈ l, f a = some (g a)) → l.filterMap f = l.map g := by
  intro l
  induction l with
  | nil => intro _; rfl
  | cons a as ih =>
      intro h
      rw [List.filterMap_cons, h a (by simp), List.map_cons,
        ih (fun x hx => h x (by simp [hx]))]

/-- Feeding normalizer output back in: filtering keeps every entry whose
duration is positive and whose text is trim-fixed and nonempty, producing
exactly the `(duration, text)` pairs. -/
theorem filterItems_toRaw (out : List ScaledCaption)
    (hdur : ∀ c ∈ out, 0 < c.end_ms - c.start_ms)
    (htxt : ∀ c ∈ out, jsTrim c.text = c.text ∧ c.text ≠ "") :
    filterItems (out.map toRaw) = out.map fun c => (c.end_ms - c.start_ms, c.text) := by
  unfold filterItems
  rw [List.filterMap_map]
  apply filterMap_eq_map_of_some
  intro c hc
  show (if c.end_ms ≤ c.start_ms then none
      else if jsTrim c.text = "" then none
      else some (c.end_ms - c.start_ms, jsTrim c.text))
    = some (c.end_ms - c.start_ms, c.text)
  have h1 := hdur c hc
  have h2 := htxt c hc
  rw [if_neg (by omega), if_neg (by rw [h2.1]; exact h2.2), h2.1]

/-!
## The fixed-point computation for C7
-/

/-- The minimum-segment floor is always at least 80 ms. -/
theorem computeMinSeg_ge80 (a : Int) (n : Nat) : 80 ≤ computeMinSeg a n := by
  simp only [computeMinSeg]
  split_ifs
  · exact le_refl _
  · exact le_max_left _ _
  · decide

/-- Scaling by `factor = T / T` rounds back to the original duration. -/
theorem jsRoundScale_self (d T : Int) (hT : 0 < T) : jsRoundScale d T T = d := by
  unfold jsRoundScale
  have h1 : 2 * d * T + T = T + d * (2 * T) := by ring
  rw [h1]
  show (T + d * (2 * T)) / (2 * T) = d
  rw [Int.add_mul_ediv_right _ _ (by omega : (2 * T) ≠ 0),
    Int.ediv_eq_zero_of_lt (by omega) (by omega)]
  omega

/-- On a list whose durations already sum to the target and sit at or above
the floor, the adjustment pipeline is the identity. -/
theorem scaleTimedDurs_fixed (out : List ScaledCaption) (T : Int) (hT : 0 < T)
    (hsum : (out.map fun c => c.end_ms - c.start_ms).sum = T)
    (hfloor : ∀ c ∈ out, computeMinSeg T out.length ≤ c.end_ms - c.start_ms) :
    scaleTimedDurs (out.map fun c => (c.end_ms - c.start_ms, c.text)) T
      = out.map fun c => c.end_ms - c.start_ms := by
  have hge1 : ∀ c ∈ out, (1 : ℤ) ≤ c.end_ms - c.start_ms := by
    intro c hc
    have h80 := computeMinSeg_ge80 T out.length
    have hf := hfloor c hc
    omega
  have hmax1 : ((out.map fun c => (c.end_ms - c.start_ms, c.text)).map
      fun it => max 1 it.1) = out.map fun c => c.end_ms - c.start_ms := by
    rw [List.map_map]
    exact List.map_congr_left fun c hc => max_eq_right (hge1 c hc)
  have hlen : (out.map fun c => (c.end_ms - c.start_ms, c.text)).length
      = out.length := List.length_map _ _
  simp only [scaleTimedDurs]
  rw [hmax1, hsum, hlen]
  have hscaled : ((out.map fun c => (c.end_ms - c.start_ms, c.text)).map
      fun it => max (computeMinSeg T out.length) (jsRoundScale (max 1 it.1) T T))
      = out.map fun c => c.end_ms - c.start_ms := by
    rw [List.map_map]
    apply List.map_congr_left
    intro c hc
    show max (computeMinSeg T out.length)
      (jsRoundScale (max 1 (c.end_ms - c.start_ms)) T T) = c.end_ms - c.start_ms
    rw [jsRoundScale_self _ T hT, max_eq_right (hge1 c hc), max_eq_right (hfloor c hc)]
  rw [hscaled, hsum]
  rw [if_neg (lt_irrefl T), if_neg (lt_irrefl T)]

/-- The output loop reconstructs a contiguous list from its own durations and
texts when started at its first start time. -/
theorem buildOut_reconstruct (T : Int) :
    ∀ (out : List ScaledCaption) (c : ScaledCaption),
      List.Chain' (fun a b => a.end_ms = b.start_ms) (c :: out) →
      ((c :: out).getLastD c).end_ms = T →
      (∀ x ∈ (c :: out).dropLast, 1 ≤ x.end_ms - x.start_ms) →
      buildOut T ((c :: out).map fun x => (x.end_ms - x.start_ms, x.text)) c.start_ms
        = c :: out := by
  intro out
  induction out with
  | nil =>
      intro c _ hlast _
      have hend : c.end_ms = T := by simpa using hlast
      show [(⟨c.start_ms, T, c.text⟩ : ScaledCaption)] = [c]
      rw [← hend]
  | cons c2 rest ih =>
      intro c hchain hlast hdurs
      rw [List.chain'_cons] at hchain
      have hd : 1 ≤ c.end_ms - c.start_ms := by
        apply hdurs c
        rw [List.dropLast_cons₂]
        exact List.mem_cons_self _ _
      simp only [List.map_cons]
      show (⟨c.start_ms, c.start_ms + max 1 (c.end_ms - c.start_ms), c.text⟩ : ScaledCaption)
          :: buildOut T ((c2.end_ms - c2.start_ms, c2.text) ::
              (rest.map fun x => (x.end_ms - x.start_ms, x.text)))
            (c.start_ms + max 1 (c.end_ms - c.start_ms)) = c :: c2 :: rest
      rw [max_eq_right hd]
      have hs2 : c.start_ms + (c.end_ms - c.start_ms) = c2.start_ms := by
        have := hchain.1
        omega
      rw [hs2]
      congr 1
      · cases c
        dsimp only at hs2
        simp only [ScaledCaption.mk.injEq, eq_self_iff_true, true_and, and_true]
        omega
      · have hrec := ih c2 hchain.2 ?_ ?_
        · rw [← hrec]
          simp only [List.map_cons]
        · have h2 := hlast
          simp only [List.getLastD_cons] at h2 ⊢
          exact h2
        · intro x hx
          apply hdurs x
          rw [List.dropLast_cons₂]
          exact List.mem_cons_of_mem _ hx

/-- An all-filtered caption list normalizes to the empty list (helper). -/
theorem normalize_of_filter_nil (caps : List RawCaption) (audioMs : Option Int)
    (h : filterItems caps = []) : normalizeAndScaleCaptions (some caps) audioMs = [] := by
  simp [normalizeAndScaleCaptions, h]

/-- C7 amended: renormalizing a normalizer output against its target `T`
reproduces it exactly, provided every output duration is at least the
recomputed minimum-segment floor (always true outside the pathological
many-tiny-caption regime; the counterexample shows it can fail otherwise). -/
theorem normalize_idem_above_floor (caps : List RawCaption) (T : Int) (hT : 0 < T)
    (hne : normalizeAndScaleCaptions (some caps) (some T) ≠ [])
    (hfloor : ∀ c ∈ normalizeAndScaleCaptions (some caps) (some T),
      computeMinSeg T (normalizeAndScaleCaptions (some caps) (some T)).length
        ≤ c.end_ms - c.start_ms) :
    normalizeAndScaleCaptions
        (some ((normalizeAndScaleCaptions (some caps) (some T)).map toRaw)) (some T)
      = normalizeAndScaleCaptions (some caps) (some T) := by
  have hfil : filterItems caps ≠ [] :=
    fun h => hne (normalize_of_filter_nil caps (some T) h)
  have heq := normalize_timed_eq caps T hT hfil
  have hpsne := timed_pairs_ne_nil caps T hfil
  have hspec := buildOut_full_spec T _ hpsne
  rw [← heq] at hspec
  generalize hgen : normalizeAndScaleCaptions (some caps) (some T) = out
    at hne hfloor heq hspec ⊢
  obtain ⟨hne2, hhead, hlast, hchain, hstarts, hsum, hdrop⟩ := hspec
  have htexts : ∀ c ∈ out, jsTrim c.text = c.text ∧ c.text ≠ "" := by
    intro c hc
    have hmem : c.text ∈ out.map ScaledCaption.text := List.mem_map_of_mem _ hc
    rw [heq, buildOut_texts] at hmem
    have hlen2 : ((filterItems caps).map Prod.snd).length
        ≤ (scaleTimedDurs (filterItems caps) T).length := by
      rw [List.length_map, scaleTimedDurs_length]
    rw [List.map_snd_zip _ _ hlen2] at hmem
    obtain ⟨p, hp, hpt⟩ := List.mem_map.mp hmem
    have hsp := filterItems_text_spec caps p hp
    rw [← hpt]
    exact hsp
  have hdurpos : ∀ c ∈ out, 0 < c.end_ms - c.start_ms := by
    intro c hc
    have h80 := computeMinSeg_ge80 T out.length
    have hf := hfloor c hc
    omega
  have hfi2 : filterItems (out.map toRaw)
      = out.map fun c => (c.end_ms - c.start_ms, c.text) :=
    filterItems_toRaw out hdurpos htexts
  have hfi2ne : filterItems (out.map toRaw) ≠ [] := by
    rw [hfi2]
    intro h
    apply hne2
    cases hcout : out with
    | nil => rfl
    | cons a l => rw [hcout] at h; simp at h
  have heq2 := normalize_timed_eq (out.map toRaw) T hT hfi2ne
  rw [heq2, hfi2]
  have hdursfix := scaleTimedDurs_fixed out T hT hsum hfloor
  rw [hdursfix]
  have hsnd : ((out.map fun c => (c.end_ms - c.start_ms, c.text)).map Prod.snd)
      = out.map ScaledCaption.text := by
    rw [List.map_map]
    rfl
  rw [hsnd, List.zip_map']
  cases hcout : out with
  | nil => exact absurd hcout hne2
  | cons c rest =>
      have hstart0 : c.start_ms = 0 := by
        rw [hcout] at hhead
        simpa using hhead
      rw [hcout] at hchain hlast hdrop
      have hl2 : ((c :: rest).getLastD c).end_ms = T := by
        rw [List.getLastD_cons]
        rw [List.getLastD_cons] at hlast
        exact hlast
      have hrecon := buildOut_reconstruct T rest c hchain hl2 hdrop
      rw [hstart0] at hrecon
      exact hrecon

/-- Witness for C7's amended claim at spec scenario 1: one 2000 ms caption,
target 4000 ms; the (single) output duration 4000 sits above the 600 ms
floor, and renormalization reproduces the list. -/
theorem normalize_idem_above_floor_witness :
    normalizeAndScaleCaptions
        (some ((normalizeAndScaleCaptions (some [⟨some 0, some 2000, "Hello"⟩])
          (some 4000)).map toRaw)) (some 4000)
      = normalizeAndScaleCaptions (some [⟨some 0, some 2000, "Hello"⟩]) (some 4000) :=
  normalize_idem_above_floor [⟨some 0, some 2000, "Hello"⟩] 4000 (by decide) (by decide)
    (by decide)
